import Mathlib

/-!
# ClawTrace — verification of the JSONL trace store, recorder, importer and
query layer

Shallow embedding of the core of the `clawtrace` repository
(`src/trace/store.ts`, `src/trace/recorder.ts`, `src/core/clawtrace.ts`,
`src/import/importer.ts`, `src/types.ts`).

Modelling conventions:

* ISO-8601 UTC timestamp strings are modelled as natural numbers
  (milliseconds since epoch).  For the fixed `toISOString` format the
  lexicographic order on the strings coincides with the numeric order on
  the instants, and `dateKey` (= `toISOString().slice(0, 10)`) becomes
  division by the number of milliseconds in a day.
* A day-partition key (`YYYY-MM-DD`) is therefore a natural number (the
  day index); `dateKey` is injective on calendar days, so distinct day
  indices model distinct partition files.
* The traces directory is a total function from day index to the parsed
  contents of that day's JSONL file (a missing file reads as `[]`, which
  the function model gives for free).
* A parsed line of a traces partition is `SkillTrace` below.  The same
  file stores both skill traces and cron records (the latter tagged with
  a `_type: 'cron'` discriminator, modelled by the `isCron` flag), and
  `readTraces` casts every line to the `SkillTrace` shape, so the
  structure is the union of both record shapes with JavaScript-absent
  fields modelled by `Option`.
* Asynchrony: `wrap`/`wrapCron` suspend only while the wrapped unit of
  work runs.  They are embedded as pure state transformers taking the
  outcome of the unit of work (`Except String T`: a resolution value or
  a rejection message) and the clock readings (start/end instants, the
  day keys current at the append and at the terminal update) as
  parameters.
-/

/-- `TraceStatus` from `src/types.ts`: `'running' | 'success' | 'failed'`. -/
inductive TraceStatus where
  | running
  | success
  | failed
deriving DecidableEq, Repr

/-- `ToolCall` from `src/types.ts`. -/
structure ToolCall where
  tool : String
  count : Nat
  details : Option String := none
deriving DecidableEq, Repr

/-- `SubAgentCall` from `src/types.ts` (recursive tree node):
`agentName`, `startTime`, `endTime?`, `durationMs?`, `status`,
`children?`.  `agentName` is `Option String` because `getTraceTree`
copies `child.skillName`, which is absent on cron lines read back from
the shared partition file. -/
inductive SubAgentCall where
  | mk (agentName : Option String) (startTime : Nat) (endTime : Option Nat)
       (durationMs : Option Nat) (status : TraceStatus)
       (children : Option (List SubAgentCall))

/-- One parsed JSONL line of a traces partition.  Union of the
`SkillTrace` and (tagged) `CronRecord` shapes from `src/types.ts`;
`isCron` models the presence of the `_type: 'cron'` discriminator that
`TraceStore.appendCronRecord` adds. -/
structure SkillTrace where
  id : String := ""
  skillName : Option String := none
  sessionLabel : Option String := none
  startTime : Nat := 0
  endTime : Option Nat := none
  durationMs : Option Nat := none
  status : TraceStatus := .running
  error : Option String := none
  cost : Option Rat := none
  toolCalls : Option (List ToolCall) := none
  subAgents : Option (List SubAgentCall) := none
  parentId : Option String := none
  /-- `_type === 'cron'` discriminator (cron records only). -/
  isCron : Bool := false
  /-- `CronRecord.jobName` (cron records only). -/
  jobName : Option String := none
  /-- `CronRecord.cronExpr` (cron records only). -/
  cronExpr : Option String := none

instance : Inhabited SkillTrace :=
  ⟨{}⟩

/-- The traces directory: day index ↦ parsed contents of that day's
JSONL partition file (`<tracesDir>/YYYY-MM-DD.jsonl`); a nonexistent
file reads as `[]`. -/
abbrev TracesDir := Nat → List SkillTrace

/-- The empty traces directory (no partition file exists yet). -/
def emptyDir : TracesDir := fun _ => []

/-- `TraceStore.appendTrace`: append one record to the daily file chosen
by `dateKey(date)` (here: the day index). -/
def appendTrace (d : TracesDir) (day : Nat) (t : SkillTrace) : TracesDir :=
  fun k => if k = day then d k ++ [t] else d k

/-- `TraceStore.readTraces`: all lines of one day's partition, in file
order, with no filtering on the cron discriminator. -/
def readTraces (d : TracesDir) (day : Nat) : List SkillTrace :=
  d day

/-- A `Partial<SkillTrace>` argument to `updateTrace`: `some v` models a
key present in the updates object, `none` a key that is absent. -/
structure TraceUpd where
  skillName : Option String := none
  sessionLabel : Option String := none
  startTime : Option Nat := none
  endTime : Option Nat := none
  durationMs : Option Nat := none
  status : Option TraceStatus := none
  error : Option String := none
  cost : Option Rat := none
  parentId : Option String := none

/-- JavaScript spread `{ ...records[idx], ...updates }`: keys present in
`updates` overwrite, all other keys keep the existing value. -/
def applyUpd (r : SkillTrace) (u : TraceUpd) : SkillTrace :=
  { r with
    skillName := u.skillName.elim r.skillName some
    sessionLabel := u.sessionLabel.elim r.sessionLabel some
    startTime := u.startTime.getD r.startTime
    endTime := u.endTime.elim r.endTime some
    durationMs := u.durationMs.elim r.durationMs some
    status := u.status.getD r.status
    error := u.error.elim r.error some
    cost := u.cost.elim r.cost some
    parentId := u.parentId.elim r.parentId some }

/-- `records[idx] = { ...records[idx], ...updates }`: replace the record
at index `i` by its merge with `u`, leaving every other line of the
file untouched. -/
def setAt (l : List SkillTrace) (i : Nat) (u : TraceUpd) : List SkillTrace :=
  match l, i with
  | [], _ => []
  | r :: rest, 0 => applyUpd r u :: rest
  | r :: rest, i + 1 => r :: setAt rest i u

/-- `TraceStore.updateTrace`: locate the first record with the given id
in one day's partition, merge the updates over it and rewrite the file;
return whether a match was found (`false` leaves the file untouched). -/
def updateTrace (d : TracesDir) (day : Nat) (id : String) (u : TraceUpd) :
    Bool × TracesDir :=
  match (d day).findIdx? (fun r => r.id == id) with
  | none => (false, d)
  | some i => (true, fun k => if k = day then setAt (d day) i u else d k)

/-- `TraceStore.appendCronRecord`: append `{ _type: 'cron', ...record }`
to the *same* daily traces file the skill traces go to. -/
def appendCronRecord (d : TracesDir) (day : Nat) (r : SkillTrace) : TracesDir :=
  appendTrace d day { r with isCron := true }

/-- The options object of `TraceRecorder.wrap`. -/
structure WrapOptions where
  sessionLabel : Option String := none
  toolCalls : Option (List ToolCall) := none
  subAgents : Option (List SubAgentCall) := none
  costUsd : Option Rat := none

/-- The running-status trace `TraceRecorder.wrap` appends before the
unit of work starts (recorder.ts lines 47–58). -/
def wrapRunningTrace (id skillName : String) (startTime : Nat)
    (opts : WrapOptions) : SkillTrace :=
  { id := id
    skillName := some skillName
    sessionLabel := opts.sessionLabel
    startTime := startTime
    status := .running
    toolCalls := opts.toolCalls
    subAgents := opts.subAgents
    cost := opts.costUsd }

/-- The partial update `wrap` applies when the unit of work resolves. -/
def wrapSuccessUpd (endTime durationMs : Nat) : TraceUpd :=
  { endTime := some endTime, durationMs := some durationMs, status := some .success }

/-- The partial update `wrap` applies when the unit of work rejects with
message `msg` (recorder.ts lines 77–82). -/
def wrapFailureUpd (endTime durationMs : Nat) (msg : String) : TraceUpd :=
  { endTime := some endTime, durationMs := some durationMs
    status := some .failed, error := some msg }

/-- `TraceRecorder.wrap`.  Parameters model the environment: `id` the
generated id, `dayStart` the `dateKey` current at the initial append,
`dayEnd` the `dateKey` current at the terminal update (the code calls
`updateTrace` with no date argument, so it targets the partition of the
day current at completion time), `startTime`/`endTime` the clock
readings, `durationMs` the measured wall-clock duration, and `outcome`
the settled result of the awaited unit of work.  Returns the value
`wrap` settles with (it re-throws the original rejection unchanged and
returns the work's result on success) together with the final store. -/
def wrap {T : Type} (d : TracesDir) (id skillName : String)
    (dayStart dayEnd startTime endTime durationMs : Nat)
    (opts : WrapOptions) (outcome : Except String T) :
    Except String T × TracesDir :=
  let d1 := appendTrace d dayStart (wrapRunningTrace id skillName startTime opts)
  match outcome with
  | .ok v => (.ok v, (updateTrace d1 dayEnd id (wrapSuccessUpd endTime durationMs)).2)
  | .error msg =>
      (.error msg, (updateTrace d1 dayEnd id (wrapFailureUpd endTime durationMs msg)).2)

/-- The parameter object of `TraceRecorder.recordTrace`. -/
structure RecordParams where
  skillName : String
  status : TraceStatus
  startTime : Nat
  endTime : Option Nat := none
  durationMs : Option Nat := none
  sessionLabel : Option String := none
  error : Option String := none
  cost : Option Rat := none
  toolCalls : Option (List ToolCall) := none
  subAgents : Option (List SubAgentCall) := none
  parentId : Option String := none

/-- `TraceRecorder.recordTrace`: append `{ id, ...params }` as one
already-terminal-or-not line, exactly as supplied; returns the id. -/
def recordTrace (d : TracesDir) (day : Nat) (id : String) (p : RecordParams) :
    String × TracesDir :=
  (id, appendTrace d day
    { id := id
      skillName := some p.skillName
      status := p.status
      startTime := p.startTime
      endTime := p.endTime
      durationMs := p.durationMs
      sessionLabel := p.sessionLabel
      error := p.error
      cost := p.cost
      toolCalls := p.toolCalls
      subAgents := p.subAgents
      parentId := p.parentId })

/-- The start record `TraceRecorder.wrapCron` appends (recorder.ts lines
141–149). -/
def cronStartRecord (id jobName : String) (cronExpr : Option String)
    (startTime : Nat) : SkillTrace :=
  { id := id
    jobName := some jobName
    cronExpr := cronExpr
    startTime := startTime
    status := .running }

/-- The completion record of `wrapCron`:
`{ ...record, id: record.id + '-done', endTime, durationMs, status, error? }`. -/
def cronDoneRecord (start : SkillTrace) (endTime durationMs : Nat)
    (st : TraceStatus) (err : Option String) : SkillTrace :=
  { start with
    id := start.id ++ "-done"
    endTime := some endTime
    durationMs := some durationMs
    status := st
    error := err }

/-- `TraceRecorder.wrapCron`: appends the running start record, runs the
unit of work, then appends an independent `-done` completion record (the
running entry stays as-is); propagates the outcome unchanged. -/
def wrapCron {T : Type} (d : TracesDir) (id jobName : String)
    (cronExpr : Option String) (dayStart dayEnd startTime endTime durationMs : Nat)
    (outcome : Except String T) : Except String T × TracesDir :=
  let start := cronStartRecord id jobName cronExpr startTime
  let d1 := appendCronRecord d dayStart start
  match outcome with
  | .ok v => (.ok v, appendCronRecord d1 dayEnd (cronDoneRecord start endTime durationMs .success none))
  | .error msg =>
      (.error msg, appendCronRecord d1 dayEnd (cronDoneRecord start endTime durationMs .failed (some msg)))


/-- `DailySummary` from `src/types.ts` (the `date` string is the day
index under the timestamp model). -/
structure DailySummary where
  day : Nat
  traces : List SkillTrace
  totalSkills : Nat
  successCount : Nat
  failedCount : Nat
  runningCount : Nat
  totalCost : Rat

/-- `ClawTrace.getDailySummary`: reads one partition (every line, cron
lines included) and folds status counts and the cost total over it. -/
def getDailySummary (d : TracesDir) (day : Nat) : DailySummary :=
  let traces := readTraces d day
  { day := day
    traces := traces
    totalSkills := traces.length
    successCount := (traces.filter (fun t => t.status == .success)).length
    failedCount := (traces.filter (fun t => t.status == .failed)).length
    runningCount := (traces.filter (fun t => t.status == .running)).length
    totalCost := traces.foldl (fun sum t => sum + t.cost.getD 0) 0 }

/-- `TraceSession` from `src/types.ts`. -/
structure TraceSession where
  id : String
  label : Option String
  startTime : Nat
  endTime : Option Nat
  skills : List SkillTrace

/-- The grouping key of `getSessions`: `t.sessionLabel ?? 'default'`. -/
def sessionKey (t : SkillTrace) : String :=
  t.sessionLabel.getD "default"

/-- Insertion order of a JavaScript `Map` built by pushing each trace
under its key: the keys in order of first occurrence. -/
def firstKeys (ts : List SkillTrace) : List String :=
  ts.foldl (fun acc t => if sessionKey t ∈ acc then acc else acc ++ [sessionKey t]) []

/-- `ClawTrace.getSessions`: group one day's traces by session label
(absent label ↦ the catch-all key `"default"`), sort each group by
start time ascending (stable, as JavaScript's sort), and derive the
group's start/end; `now` models `new Date().toISOString()` used as the
start of an (impossible in practice) empty group. -/
def getSessions (d : TracesDir) (day : Nat) (now : Nat) : List TraceSession :=
  let traces := readTraces d day
  (firstKeys traces).map (fun label =>
    let group := traces.filter (fun t => sessionKey t == label)
    let sorted := group.mergeSort (fun a b => a.startTime ≤ b.startTime)
    { id := label
      label := if label = "default" then none else some label
      startTime := ((sorted.head?).map (·.startTime)).getD now
      endTime := (sorted.getLast?).bind (·.endTime)
      skills := sorted })

/-- Modelled from the spec: `TraceStore.readTracesDateRange` is called
by `ClawTrace.getStatsRange`, `ClawTrace.getRankings` and
`importSessionLogs` and exercised by the repository's tests, but its
definition is not among the provided source files.  Spec §4.1
(`readRange`): "unions `readAll` across every partition whose date
falls within the inclusive range, in ascending partition order,
preserving per-partition insertion order." -/
def readTracesDateRange (d : TracesDir) (startDay endDay : Nat) : List SkillTrace :=
  (List.range' startDay (endDay + 1 - startDay)).flatMap d

/-- `ClawTrace.getStatsRange`: the `getDailySummary` fold over the range
read instead of a single partition. -/
def getStatsRange (d : TracesDir) (startDay endDay : Nat) : DailySummary :=
  let traces := readTracesDateRange d startDay endDay
  { day := startDay
    traces := traces
    totalSkills := traces.length
    successCount := (traces.filter (fun t => t.status == .success)).length
    failedCount := (traces.filter (fun t => t.status == .failed)).length
    runningCount := (traces.filter (fun t => t.status == .running)).length
    totalCost := traces.foldl (fun sum t => sum + t.cost.getD 0) 0 }

/-- `SkillRankEntry` from `src/core/clawtrace.ts`.  The key is
`t.skillName`, which can be absent on cron lines sharing the file. -/
structure SkillRankEntry where
  skillName : Option String
  callCount : Nat
  successRate : Nat
  avgDurationMs : Option Nat
deriving DecidableEq, Repr

/-- `Math.round(a / b)` for naturals with `b > 0` (JavaScript rounds
half toward positive infinity): `⌊a/b + 1/2⌋ = (2a + b) / (2b)`. -/
def jsRoundDiv (a b : Nat) : Nat :=
  (2 * a + b) / (2 * b)

/-- Ranking-map keys in first-occurrence order (JavaScript `Map`
iteration order). -/
def rankKeys (ts : List SkillTrace) : List (Option String) :=
  ts.foldl (fun acc t => if t.skillName ∈ acc then acc else acc ++ [t.skillName]) []

/-- The per-skill entry `getRankings` builds from the group of traces
with a given name: call count, `Math.round(success/count*100)` (0 when
the count is 0), and the rounded mean of the present durations (absent
when no trace in the group has one). -/
def rankEntry (ts : List SkillTrace) (key : Option String) : SkillRankEntry :=
  let group := ts.filter (fun t => t.skillName == key)
  let durations := group.filterMap (·.durationMs)
  { skillName := key
    callCount := group.length
    successRate :=
      if group.length > 0 then
        jsRoundDiv ((group.filter (fun t => t.status == .success)).length * 100)
          group.length
      else 0
    avgDurationMs :=
      if durations.length > 0 then some (jsRoundDiv durations.sum durations.length)
      else none }

/-- `ClawTrace.getRankings`: aggregate per-skill statistics over the
range read, then sort by call count descending (JavaScript's stable
sort with comparator `b.callCount - a.callCount`). -/
def getRankings (d : TracesDir) (startDay endDay : Nat) : List SkillRankEntry :=
  ((rankKeys (readTracesDateRange d startDay endDay)).map
      (rankEntry (readTracesDateRange d startDay endDay))).mergeSort
    (fun a b => b.callCount ≤ a.callCount)

/-- The recursive `buildChildren` closure of `ClawTrace.getTraceTree`,
made total with a fuel argument: the source recursion has no cycle
guard, so its Lean embedding is indexed by a recursion-depth budget and
the source's behaviour on a partition is the limit of this function as
the fuel grows (it diverges exactly when that limit does not
stabilize). -/
def buildChildrenF (d : List SkillTrace) : Nat → String → List SubAgentCall
  | 0, _ => []
  | fuel + 1, parentId =>
      (d.filter (fun t => t.parentId == some parentId)).map (fun c =>
        .mk c.skillName c.startTime c.endTime c.durationMs c.status
          (some (buildChildrenF d fuel c.id)))

/-- `ClawTrace.getTraceTree` (fuel-indexed, see `buildChildrenF`): if
the root trace exists and has a non-empty embedded `subAgents` list,
return it verbatim; otherwise reconstruct the tree from `parentId`
references. -/
def getTraceTreeF (d : List SkillTrace) (fuel : Nat) (traceId : String) :
    List SubAgentCall :=
  match (d.find? (fun t => t.id == traceId)).bind (·.subAgents) with
  | some l => if l.length > 0 then l else buildChildrenF d fuel traceId
  | none => buildChildrenF d fuel traceId

/-- `getTraceTreeF d · traceId` stabilizes: the source recursion
terminates on this input.  (The source's `getTraceTree` returns the
common value of all sufficiently large fuels.) -/
def TreeTerminates (d : List SkillTrace) (traceId : String) : Prop :=
  ∃ N, ∀ m, N ≤ m → getTraceTreeF d m traceId = getTraceTreeF d N traceId

/-! ## Store lemmas -/

theorem findIdx?_id_eq_none {l : List SkillTrace} {id : String}
    (h : id ∉ l.map (·.id)) : l.findIdx? (fun r => r.id == id) = none := by
  rw [List.findIdx?_eq_none_iff]
  intro r hr
  have hne : r.id ≠ id := fun he => h (List.mem_map.mpr ⟨r, hr, he⟩)
  simpa using hne

theorem setAt_getElem?_ne (u : TraceUpd) :
    ∀ (l : List SkillTrace) (i j : Nat), j ≠ i → (setAt l i u)[j]? = l[j]? := by
  intro l
  induction l with
  | nil => intro i j _; cases i <;> rfl
  | cons r rest ih =>
    intro i j hne
    cases i with
    | zero =>
      cases j with
      | zero => exact absurd rfl hne
      | succ j => simp [setAt]
    | succ i =>
      cases j with
      | zero => simp [setAt]
      | succ j =>
        simp only [setAt, List.getElem?_cons_succ]
        exact ih i j (fun he => hne (by rw [he]))

theorem setAt_getElem?_eq (u : TraceUpd) :
    ∀ (l : List SkillTrace) (i : Nat),
      (setAt l i u)[i]? = (l[i]?).map (fun r => applyUpd r u) := by
  intro l
  induction l with
  | nil => intro i; cases i <;> rfl
  | cons r rest ih =>
    intro i
    cases i with
    | zero => simp [setAt]
    | succ i => simpa [setAt] using ih i

/-- The `Partial<SkillTrace>` value `{ status, durationMs }`. -/
def statusDurationUpd (st : TraceStatus) (dm : Nat) : TraceUpd :=
  { status := some st, durationMs := some dm }

/-- C5: for every partition and every trace in it, calling `updateTrace`
with only `{status, durationMs}` overwrites exactly those two fields of
the first record matching the id and leaves `skillName`, `startTime`
and every other field of that record — and every other line of the
partition, and every other partition — unchanged; for an id with no
matching record it returns `false` and leaves the store unmodified. -/
theorem updateTrace_status_duration_frame
    (d : TracesDir) (day : Nat) (id : String) (st : TraceStatus) (dm : Nat) :
    (id ∉ (d day).map (·.id) →
      updateTrace d day id (statusDurationUpd st dm) = (false, d))
    ∧ (∀ r : SkillTrace,
        (applyUpd r (statusDurationUpd st dm)).id = r.id ∧
        (applyUpd r (statusDurationUpd st dm)).skillName = r.skillName ∧
        (applyUpd r (statusDurationUpd st dm)).sessionLabel = r.sessionLabel ∧
        (applyUpd r (statusDurationUpd st dm)).startTime = r.startTime ∧
        (applyUpd r (statusDurationUpd st dm)).endTime = r.endTime ∧
        (applyUpd r (statusDurationUpd st dm)).error = r.error ∧
        (applyUpd r (statusDurationUpd st dm)).cost = r.cost ∧
        (applyUpd r (statusDurationUpd st dm)).toolCalls = r.toolCalls ∧
        (applyUpd r (statusDurationUpd st dm)).subAgents = r.subAgents ∧
        (applyUpd r (statusDurationUpd st dm)).parentId = r.parentId ∧
        (applyUpd r (statusDurationUpd st dm)).isCron = r.isCron ∧
        (applyUpd r (statusDurationUpd st dm)).jobName = r.jobName ∧
        (applyUpd r (statusDurationUpd st dm)).cronExpr = r.cronExpr ∧
        (applyUpd r (statusDurationUpd st dm)).status = st ∧
        (applyUpd r (statusDurationUpd st dm)).durationMs = some dm)
    ∧ (∀ i, (d day).findIdx? (fun r => r.id == id) = some i →
        (updateTrace d day id (statusDurationUpd st dm)).1 = true ∧
        (updateTrace d day id (statusDurationUpd st dm)).2 day
          = setAt (d day) i (statusDurationUpd st dm) ∧
        (∀ k, k ≠ day → (updateTrace d day id (statusDurationUpd st dm)).2 k = d k) ∧
        (∀ j, j ≠ i →
          (setAt (d day) i (statusDurationUpd st dm))[j]? = (d day)[j]?) ∧
        (setAt (d day) i (statusDurationUpd st dm))[i]?
          = ((d day)[i]?).map (fun r => applyUpd r (statusDurationUpd st dm))) := by
  refine ⟨?_, ?_, ?_⟩
  · intro h
    unfold updateTrace
    rw [findIdx?_id_eq_none h]
  · intro r
    refine ⟨rfl, ?_, ?_, rfl, ?_, ?_, ?_, rfl, rfl, ?_, rfl, rfl, rfl, rfl, rfl⟩ <;>
      simp [applyUpd, statusDurationUpd]
  · intro i hi
    unfold updateTrace
    rw [hi]
    refine ⟨rfl, by simp, fun k hk => by simp [hk], fun j hj => setAt_getElem?_ne _ _ _ _ hj,
      setAt_getElem?_eq _ _ _⟩

/-- Witness for C5 at a concrete store: one partition holding one trace;
updating a missing id returns `false` and leaves the store unchanged,
and the merge preserves the untouched fields of a concrete record. -/
theorem updateTrace_status_duration_frame_witness :
    updateTrace (appendTrace emptyDir 0 { id := "a", skillName := some "s", startTime := 7 })
        0 "missing" (statusDurationUpd .success 5)
      = (false, appendTrace emptyDir 0 { id := "a", skillName := some "s", startTime := 7 })
    ∧ (applyUpd { id := "a", skillName := some "s", startTime := 7 }
        (statusDurationUpd .success 5)).skillName = some "s"
    ∧ (applyUpd { id := "a", skillName := some "s", startTime := 7 }
        (statusDurationUpd .success 5)).startTime = 7 := by
  refine ⟨(updateTrace_status_duration_frame
      (appendTrace emptyDir 0 { id := "a", skillName := some "s", startTime := 7 })
      0 "missing" .success 5).1 (by simp [appendTrace, emptyDir]),
    ((updateTrace_status_duration_frame emptyDir 0 "missing" .success 5).2.1
      { id := "a", skillName := some "s", startTime := 7 }).2.1,
    ((updateTrace_status_duration_frame emptyDir 0 "missing" .success 5).2.1
      { id := "a", skillName := some "s", startTime := 7 }).2.2.2.1⟩

theorem findIdx?_append_fresh {l : List SkillTrace} {t : SkillTrace} {id : String}
    (h : id ∉ l.map (·.id)) (ht : t.id = id) :
    (l ++ [t]).findIdx? (fun r => r.id == id) = some l.length := by
  rw [List.findIdx?_append, findIdx?_id_eq_none h]
  simp [List.findIdx?_cons, ht]

theorem setAt_append_fresh (u : TraceUpd) :
    ∀ (l : List SkillTrace) (t : SkillTrace),
      setAt (l ++ [t]) l.length u = l ++ [applyUpd t u] := by
  intro l
  induction l with
  | nil => intro t; rfl
  | cons r rest ih => intro t; simpa [setAt] using ih t

theorem filter_id_eq_nil {l : List SkillTrace} {id : String}
    (h : id ∉ l.map (·.id)) : l.filter (fun r => r.id == id) = [] := by
  rw [List.filter_eq_nil_iff]
  intro r hr
  have hne : r.id ≠ id := fun he => h (List.mem_map.mpr ⟨r, hr, he⟩)
  simpa using hne

/-- The terminal record `wrap` leaves in the store: the running trace
merged with the success update (work resolved) or the failure update
(work rejected with the captured message). -/
def wrapFinalTrace {T : Type} (id skillName : String) (startTime : Nat)
    (opts : WrapOptions) (endTime durationMs : Nat)
    (outcome : Except String T) : SkillTrace :=
  match outcome with
  | .ok _ =>
      applyUpd (wrapRunningTrace id skillName startTime opts)
        (wrapSuccessUpd endTime durationMs)
  | .error msg =>
      applyUpd (wrapRunningTrace id skillName startTime opts)
        (wrapFailureUpd endTime durationMs msg)

/-- C1: when the generated id is fresh for the partition and the
terminal update runs on the same calendar day as the initial append,
`wrap` leaves exactly one trace with that id in the partition, that
trace is terminal (`success` on resolution, `failed` on rejection) with
`endTime` and `durationMs` present, on rejection its `error` field is
the rejection's message and `wrap` settles with the original outcome
unchanged (result on resolution, same error on rejection). -/
theorem wrap_writes_one_terminal_trace {T : Type} (d : TracesDir)
    (id skillName : String) (day startTime endTime durationMs : Nat)
    (opts : WrapOptions) (outcome : Except String T)
    (hfresh : id ∉ (d day).map (·.id)) :
    (wrap d id skillName day day startTime endTime durationMs opts outcome).2 day
      = d day ++ [wrapFinalTrace id skillName startTime opts endTime durationMs outcome]
    ∧ (∀ k, k ≠ day →
        (wrap d id skillName day day startTime endTime durationMs opts outcome).2 k = d k)
    ∧ (((wrap d id skillName day day startTime endTime durationMs opts outcome).2 day).filter
        (fun r => r.id == id)).length = 1
    ∧ (wrapFinalTrace id skillName startTime opts endTime durationMs outcome).id = id
    ∧ ((wrapFinalTrace id skillName startTime opts endTime durationMs outcome).status = .success
        ∨ (wrapFinalTrace id skillName startTime opts endTime durationMs outcome).status = .failed)
    ∧ (wrapFinalTrace id skillName startTime opts endTime durationMs outcome).endTime = some endTime
    ∧ (wrapFinalTrace id skillName startTime opts endTime durationMs outcome).durationMs
        = some durationMs
    ∧ (wrap d id skillName day day startTime endTime durationMs opts outcome).1 = outcome
    ∧ (∀ msg, outcome = .error msg →
        (wrapFinalTrace id skillName startTime opts endTime durationMs outcome).error = some msg
        ∧ (wrapFinalTrace id skillName startTime opts endTime durationMs outcome).status = .failed)
    ∧ (∀ v, outcome = .ok v →
        (wrapFinalTrace id skillName startTime opts endTime durationMs outcome).status
          = .success) := by
  have happ : appendTrace d day (wrapRunningTrace id skillName startTime opts) day
      = d day ++ [wrapRunningTrace id skillName startTime opts] := by
    simp [appendTrace]
  have hid : (wrapRunningTrace id skillName startTime opts).id = id := rfl
  have hfind : (d day ++ [wrapRunningTrace id skillName startTime opts]).findIdx?
      (fun r => r.id == id) = some (d day).length :=
    findIdx?_append_fresh hfresh hid
  cases outcome with
  | ok v =>
    have hdir : (wrap d id skillName day day startTime endTime durationMs opts (.ok v)).2 day
        = d day ++ [wrapFinalTrace id skillName startTime opts endTime durationMs
            (Except.ok (ε := String) v)] := by
      show (updateTrace (appendTrace d day (wrapRunningTrace id skillName startTime opts))
        day id (wrapSuccessUpd endTime durationMs)).2 day = _
      unfold updateTrace
      rw [happ, hfind]
      simpa [wrapFinalTrace] using setAt_append_fresh (wrapSuccessUpd endTime durationMs)
        (d day) (wrapRunningTrace id skillName startTime opts)
    refine ⟨hdir, ?_, ?_, rfl, .inl rfl, rfl, rfl, rfl, ?_, fun _ _ => rfl⟩
    · intro k hk
      show (updateTrace (appendTrace d day (wrapRunningTrace id skillName startTime opts))
        day id (wrapSuccessUpd endTime durationMs)).2 k = d k
      unfold updateTrace
      rw [happ, hfind]
      simp [appendTrace, hk]
    · rw [hdir, List.filter_append, filter_id_eq_nil hfresh]
      simp [wrapFinalTrace, applyUpd, wrapRunningTrace]
    · intro msg hmsg
      cases hmsg
  | error msg =>
    have hdir : (wrap (T := T) d id skillName day day startTime endTime durationMs opts (.error msg)).2 day
        = d day ++ [wrapFinalTrace (T := T) id skillName startTime opts endTime durationMs
            (Except.error msg)] := by
      show (updateTrace (appendTrace d day (wrapRunningTrace id skillName startTime opts))
        day id (wrapFailureUpd endTime durationMs msg)).2 day = _
      unfold updateTrace
      rw [happ, hfind]
      simpa [wrapFinalTrace] using setAt_append_fresh (wrapFailureUpd endTime durationMs msg)
        (d day) (wrapRunningTrace id skillName startTime opts)
    refine ⟨hdir, ?_, ?_, rfl, .inr rfl, rfl, rfl, rfl, fun m hm => ?_, fun v hv => by cases hv⟩
    · intro k hk
      show (updateTrace (appendTrace d day (wrapRunningTrace id skillName startTime opts))
        day id (wrapFailureUpd endTime durationMs msg)).2 k = d k
      unfold updateTrace
      rw [happ, hfind]
      simp [appendTrace, hk]
    · rw [hdir, List.filter_append, filter_id_eq_nil hfresh]
      simp [wrapFinalTrace, applyUpd, wrapRunningTrace]
    · cases hm
      exact ⟨rfl, rfl⟩

/-- Witness for C1: a rejected unit of work over the empty store, same
day throughout — one terminal `failed` trace with the rejection's
message is recorded, and `wrap` settles with the same rejection. -/
theorem wrap_writes_one_terminal_trace_witness :
    (wrap (T := Nat) emptyDir "id1" "sk" 0 0 10 20 10 {} (.error "boom")).2 0
      = [wrapFinalTrace (T := Nat) "id1" "sk" 10 {} 20 10 (.error "boom")]
    ∧ (wrapFinalTrace (T := Nat) "id1" "sk" 10 {} 20 10 (.error "boom")).error = some "boom"
    ∧ (wrap (T := Nat) emptyDir "id1" "sk" 0 0 10 20 10 {} (.error "boom")).1
      = .error "boom" := by
  have h := wrap_writes_one_terminal_trace (T := Nat) emptyDir "id1" "sk" 0 10 20 10 {}
    (.error "boom") (by simp [emptyDir])
  exact ⟨h.1, (h.2.2.2.2.2.2.2.2.1 "boom" rfl).1, h.2.2.2.2.2.2.2.1⟩

/-- C10: `wrap`'s terminal update calls `updateTrace` with no date
argument, so it targets the partition of the day current at completion
time.  For a unit of work that starts on one UTC day and settles on
another (and a generated id not present in the completion day's
partition), the update finds no matching record and returns `false`,
the store is left exactly as the initial append produced it, and the
original record stays in the start-day partition with status `running`
and neither `endTime` nor `durationMs`. -/
theorem wrap_cross_midnight_orphans_trace {T : Type} (d : TracesDir)
    (id skillName msg : String) (dayStart dayEnd startTime endTime durationMs : Nat)
    (opts : WrapOptions) (outcome : Except String T)
    (hday : dayStart ≠ dayEnd)
    (hfreshEnd : id ∉ (d dayEnd).map (·.id)) :
    (updateTrace (appendTrace d dayStart (wrapRunningTrace id skillName startTime opts))
        dayEnd id (wrapSuccessUpd endTime durationMs)).1 = false
    ∧ (updateTrace (appendTrace d dayStart (wrapRunningTrace id skillName startTime opts))
        dayEnd id (wrapFailureUpd endTime durationMs msg)).1 = false
    ∧ (wrap d id skillName dayStart dayEnd startTime endTime durationMs opts outcome).2
      = appendTrace d dayStart (wrapRunningTrace id skillName startTime opts)
    ∧ (wrap d id skillName dayStart dayEnd startTime endTime durationMs opts outcome).2 dayStart
      = d dayStart ++ [wrapRunningTrace id skillName startTime opts]
    ∧ (wrapRunningTrace id skillName startTime opts).status = .running
    ∧ (wrapRunningTrace id skillName startTime opts).endTime = none
    ∧ (wrapRunningTrace id skillName startTime opts).durationMs = none := by
  have hd1 : appendTrace d dayStart (wrapRunningTrace id skillName startTime opts) dayEnd
      = d dayEnd := by
    simp only [appendTrace]
    rw [if_neg (Ne.symm hday)]
  have hnone : (appendTrace d dayStart (wrapRunningTrace id skillName startTime opts)
      dayEnd).findIdx? (fun r => r.id == id) = none := by
    rw [hd1]
    exact findIdx?_id_eq_none hfreshEnd
  have hwrap : (wrap d id skillName dayStart dayEnd startTime endTime durationMs opts outcome).2
      = appendTrace d dayStart (wrapRunningTrace id skillName startTime opts) := by
    cases outcome with
    | ok v =>
      show (updateTrace (appendTrace d dayStart (wrapRunningTrace id skillName startTime opts))
        dayEnd id (wrapSuccessUpd endTime durationMs)).2 = _
      unfold updateTrace
      rw [hnone]
    | error m =>
      show (updateTrace (appendTrace d dayStart (wrapRunningTrace id skillName startTime opts))
        dayEnd id (wrapFailureUpd endTime durationMs m)).2 = _
      unfold updateTrace
      rw [hnone]
  refine ⟨?_, ?_, hwrap, ?_, rfl, rfl, rfl⟩
  · unfold updateTrace
    rw [hnone]
  · unfold updateTrace
    rw [hnone]
  · rw [hwrap]
    simp [appendTrace]

/-- Witness for C10: work starts on day 0, settles on day 1 over the
empty store — the update misses and the running record is orphaned. -/
theorem wrap_cross_midnight_orphans_trace_witness :
    (updateTrace (appendTrace emptyDir 0 (wrapRunningTrace "id1" "sk" 10 {}))
        1 "id1" (wrapSuccessUpd 20 10)).1 = false
    ∧ (wrap (T := Nat) emptyDir "id1" "sk" 0 1 10 20 10 {} (.ok 42)).2 0
      = [wrapRunningTrace "id1" "sk" 10 {}]
    ∧ (wrapRunningTrace "id1" "sk" 10 {}).status = .running := by
  have h := wrap_cross_midnight_orphans_trace (T := Nat) emptyDir "id1" "sk" "m" 0 1 10 20 10 {}
    (.ok 42) (by decide) (by simp [emptyDir])
  exact ⟨h.1, h.2.2.2.1, h.2.2.2.2.1⟩

/-- Counterexample to C2 as stated: `recordTrace` (and likewise the
importer) writes exactly the fields the caller supplies, so the system
writes a trace with status `success` and neither `endTime` nor
`durationMs` into the partition. -/
theorem recordTrace_success_without_end_counterexample :
    ((recordTrace emptyDir 0 "id1"
        { skillName := "sk", status := .success, startTime := 5 }).2 0).map
      (fun r => (r.status, r.endTime, r.durationMs))
      = [(TraceStatus.success, none, none)] := by
  rfl

/-- C2 (amended): the timing invariant holds for the records `wrap`
writes — the running record it appends has no `endTime` and no
`durationMs`; its terminal record is `success`/`failed` with both
present; and an `updateTrace` merge whose updates do not contain
`endTime`/`durationMs` never removes them from a record.  (`recordTrace`
and the importer write caller- or log-supplied fields verbatim and can
produce terminal records with both absent.) -/
theorem wrap_records_timing_invariant {T : Type} (id skillName : String)
    (startTime endTime durationMs : Nat) (opts : WrapOptions)
    (outcome : Except String T) :
    (wrapRunningTrace id skillName startTime opts).status = .running
    ∧ (wrapRunningTrace id skillName startTime opts).endTime = none
    ∧ (wrapRunningTrace id skillName startTime opts).durationMs = none
    ∧ ((wrapFinalTrace id skillName startTime opts endTime durationMs outcome).status = .success
        ∨ (wrapFinalTrace id skillName startTime opts endTime durationMs outcome).status = .failed)
    ∧ (wrapFinalTrace id skillName startTime opts endTime durationMs outcome).endTime
        = some endTime
    ∧ (wrapFinalTrace id skillName startTime opts endTime durationMs outcome).durationMs
        = some durationMs
    ∧ (∀ (r : SkillTrace) (u : TraceUpd), u.endTime = none →
        (applyUpd r u).endTime = r.endTime)
    ∧ (∀ (r : SkillTrace) (u : TraceUpd), u.durationMs = none →
        (applyUpd r u).durationMs = r.durationMs) := by
  refine ⟨rfl, rfl, rfl, ?_, ?_, ?_, ?_, ?_⟩
  · cases outcome with
    | ok v => exact .inl rfl
    | error m => exact .inr rfl
  · cases outcome <;> rfl
  · cases outcome <;> rfl
  · intro r u hu
    simp [applyUpd, hu]
  · intro r u hu
    simp [applyUpd, hu]

/-- Witness for the amended C2 at concrete inputs: a successful wrap on
day 0, plus a merge that supplies neither timing field. -/
theorem wrap_records_timing_invariant_witness :
    (wrapRunningTrace "id1" "sk" 10 {}).endTime = none
    ∧ (wrapFinalTrace (T := Nat) "id1" "sk" 10 {} 20 10 (.ok 3)).endTime = some 20
    ∧ (applyUpd { id := "a", startTime := 0, endTime := some 9 }
        { status := some .failed }).endTime = some 9 := by
  have h := wrap_records_timing_invariant (T := Nat) "id1" "sk" 10 20 10 {} (.ok 3)
  exact ⟨h.2.1, h.2.2.2.2.1,
    h.2.2.2.2.2.2.1 { id := "a", startTime := 0, endTime := some 9 }
      { status := some .failed } rfl⟩

theorem filter_range_le (s : Nat) :
    ∀ e, (List.range (e + 1)).filter (fun k => decide (s ≤ k)) = List.range' s (e + 1 - s) := by
  intro e
  induction e with
  | zero =>
    cases s with
    | zero => rfl
    | succ s => rw [List.range_succ, List.range_zero]; simp
  | succ e ih =>
    rw [List.range_succ, List.filter_append, ih]
    by_cases hs : s ≤ e + 1
    · have h2 : e + 1 + 1 - s = (e + 1 - s) + 1 := by omega
      rw [h2, List.range'_concat]
      have h3 : s + 1 * (e + 1 - s) = e + 1 := by omega
      rw [h3]
      simp [hs]
    · have h0 : e + 1 - s = 0 := by omega
      have h1 : e + 1 + 1 - s = 0 := by omega
      rw [h0, h1]
      simp [hs]

/-- C4: the range read (`readTracesDateRange`, the spec's `readRange`)
returns the union of `readAll` over exactly the partitions whose date
lies in the inclusive `[startDay, endDay]` range, visiting partitions
in ascending date order and preserving per-partition insertion order
(it equals the concatenation of `d k` over the ascending days `k` with
`startDay ≤ k ≤ endDay`); membership is equivalent to membership in
some in-range partition; and `getStatsRange` and `getRankings`
aggregate exactly this list. -/
theorem readTracesDateRange_inclusive_union (d : TracesDir) (s e : Nat) :
    readTracesDateRange d s e
      = ((List.range (e + 1)).filter (fun k => decide (s ≤ k))).flatMap d
    ∧ (∀ t, t ∈ readTracesDateRange d s e ↔ ∃ k, s ≤ k ∧ k ≤ e ∧ t ∈ d k)
    ∧ (getStatsRange d s e).traces = readTracesDateRange d s e
    ∧ getRankings d s e
      = ((rankKeys (readTracesDateRange d s e)).map
          (rankEntry (readTracesDateRange d s e))).mergeSort
          (fun a b => b.callCount ≤ a.callCount) := by
  refine ⟨by rw [readTracesDateRange, filter_range_le], ?_, rfl, rfl⟩
  intro t
  rw [readTracesDateRange, List.mem_flatMap]
  constructor
  · rintro ⟨k, hk, ht⟩
    rw [List.mem_range'_1] at hk
    exact ⟨k, hk.1, by omega, ht⟩
  · rintro ⟨k, hks, hke, ht⟩
    exact ⟨k, List.mem_range'_1.mpr ⟨hks, by omega⟩, ht⟩

/-- Witness for C4: a store with one trace on day 2 — the trace is a
member of the inclusive range read over days 1–3. -/
theorem readTracesDateRange_inclusive_union_witness :
    ({ id := "t1" } : SkillTrace)
      ∈ readTracesDateRange (appendTrace emptyDir 2 { id := "t1" }) 1 3 :=
  ((readTracesDateRange_inclusive_union (appendTrace emptyDir 2 { id := "t1" }) 1 3).2.1
    { id := "t1" }).mpr ⟨2, by omega, by omega, by simp [appendTrace, emptyDir]⟩

/-- The ranking example partition of spec §8.6: traces
{A:success, A:success, A:failed, B:success} on day 0. -/
def rankExampleDir : TracesDir := fun k =>
  if k = 0 then
    [{ id := "a1", skillName := some "A", status := .success },
     { id := "a2", skillName := some "A", status := .success },
     { id := "a3", skillName := some "A", status := .failed },
     { id := "b1", skillName := some "B", status := .success }]
  else []

/-- C6: on the multiset {A:success, A:success, A:failed, B:success} in
the queried range, `getRankings` ranks A above B with callCount 3 and
successRate 67 against B's callCount 1 and successRate 100, and both
`avgDurationMs` absent (no durations observed); in general the output
is sorted by call count descending and every entry is the per-group
aggregate (`rankEntry`: rounded integer success percentage, rounded
mean duration or absent) of its skill's group in the range read. -/
theorem getRankings_sorted_and_aggregated :
    getRankings rankExampleDir 0 0
      = [{ skillName := some "A", callCount := 3, successRate := 67, avgDurationMs := none },
         { skillName := some "B", callCount := 1, successRate := 100, avgDurationMs := none }]
    ∧ (∀ (d : TracesDir) (s e : Nat),
        (getRankings d s e).Pairwise (fun a b => b.callCount ≤ a.callCount))
    ∧ (∀ (d : TracesDir) (s e : Nat) (en : SkillRankEntry), en ∈ getRankings d s e →
        en = rankEntry (readTracesDateRange d s e) en.skillName) := by
  refine ⟨?_, ?_, ?_⟩
  · have hmap : (rankKeys (readTracesDateRange rankExampleDir 0 0)).map
        (rankEntry (readTracesDateRange rankExampleDir 0 0))
        = [{ skillName := some "A", callCount := 3, successRate := 67, avgDurationMs := none },
           { skillName := some "B", callCount := 1, successRate := 100, avgDurationMs := none }] := by
      decide
    unfold getRankings
    rw [hmap]
    exact List.mergeSort_of_sorted (by decide)
  · intro d s e
    refine List.Pairwise.imp (fun h => of_decide_eq_true h) (List.sorted_mergeSort ?_ ?_ _)
    · intro a b c hab hbc
      simp only [decide_eq_true_eq] at *
      omega
    · intro a b
      rcases Nat.le_total b.callCount a.callCount with h | h <;> simp [h]
  · intro d s e en hen
    unfold getRankings at hen
    rw [List.mem_mergeSort] at hen
    obtain ⟨k, hk, rfl⟩ := List.mem_map.mp hen
    rfl

/-- Witness for C6: the entry for A in the concrete ranking is exactly
the aggregate of A's group in the range read. -/
theorem getRankings_sorted_and_aggregated_witness :
    ({ skillName := some "A", callCount := 3, successRate := 67,
        avgDurationMs := none } : SkillRankEntry)
      = rankEntry (readTracesDateRange rankExampleDir 0 0) (some "A") :=
  getRankings_sorted_and_aggregated.2.2 rankExampleDir 0 0
    { skillName := some "A", callCount := 3, successRate := 67, avgDurationMs := none }
    (by rw [getRankings_sorted_and_aggregated.1]; exact List.mem_cons_self _ _)

/-- Depth of a sub-agent forest (used to show that the tree built over a
cyclic `parentId` chain never stabilizes as the fuel grows). -/
def saListDepth : List SubAgentCall → Nat
  | [] => 0
  | (.mk _ _ _ _ _ children) :: rest =>
      max (1 + (match children with
                | some l => saListDepth l
                | none => 0)) (saListDepth rest)

/-- A partition with a self-referential `parentId` chain, injectable via
the store's public `appendTrace`. -/
def cyclicPartition : List SkillTrace :=
  [{ id := "a", parentId := some "a" }]

theorem buildChildrenF_cyclic (n : Nat) :
    buildChildrenF cyclicPartition (n + 1) "a"
      = [.mk none 0 none none .running (some (buildChildrenF cyclicPartition n "a"))] := by
  rfl

theorem saListDepth_buildChildrenF_cyclic :
    ∀ n, saListDepth (buildChildrenF cyclicPartition n "a") = n := by
  intro n
  induction n with
  | zero => simp [buildChildrenF, saListDepth]
  | succ n ih =>
    rw [buildChildrenF_cyclic]
    simp [saListDepth, ih]
    omega

/-- Counterexample to C8 as stated: on a partition containing a record
whose `parentId` equals its own id (injectable through `appendTrace`),
the `getTraceTree` recursion does not terminate — its fuel-indexed
approximants strictly deepen forever and never stabilize. -/
theorem getTraceTree_cyclic_counterexample :
    ¬ TreeTerminates cyclicPartition "a" := by
  rintro ⟨N, h⟩
  have h1 := h (N + 1) (Nat.le_succ N)
  have hTT : ∀ m, getTraceTreeF cyclicPartition m "a"
      = buildChildrenF cyclicPartition m "a" := fun _ => rfl
  rw [hTT, hTT] at h1
  have h2 := congrArg saListDepth h1
  rw [saListDepth_buildChildrenF_cyclic, saListDepth_buildChildrenF_cyclic] at h2
  omega

/-- A rank function witnessing that the `parentId` graph of a partition
is acyclic: every record's own id ranks strictly below the id its
`parentId` points at, so the recursion of `buildChildren` descends. -/
def ParentRankDecreasing (rank : String → Nat) (d : List SkillTrace) : Prop :=
  ∀ c ∈ d, ∀ pid, c.parentId = some pid → rank c.id < rank pid

theorem buildChildrenF_stab (d : List SkillTrace) (rank : String → Nat)
    (hr : ParentRankDecreasing rank d) :
    ∀ (R : Nat) (pid : String), rank pid ≤ R → ∀ n m, rank pid ≤ n → rank pid ≤ m →
      buildChildrenF d (n + 1) pid = buildChildrenF d (m + 1) pid := by
  intro R
  induction R with
  | zero =>
    intro pid hR n m _ _
    have hf : d.filter (fun t => t.parentId == some pid) = [] := by
      rw [List.filter_eq_nil_iff]
      intro c hc hbeq
      have hp : c.parentId = some pid := by simpa using hbeq
      have := hr c hc pid hp
      omega
    simp only [buildChildrenF, hf, List.map_nil]
  | succ R ih =>
    intro pid hR n m hn hm
    simp only [buildChildrenF]
    apply List.map_congr_left
    intro c hc
    have hcd := (List.mem_filter.mp hc).1
    have hp : c.parentId = some pid := by
      simpa using (List.mem_filter.mp hc).2
    have hlt := hr c hcd pid hp
    have heq : buildChildrenF d n c.id = buildChildrenF d m c.id := by
      have hn' : n = (n - 1) + 1 := by omega
      have hm' : m = (m - 1) + 1 := by omega
      rw [hn', hm']
      exact ih c.id (by omega) (n - 1) (m - 1) (by omega) (by omega)
    rw [heq]

/-- C8 (amended): `getTraceTree` terminates on every partition whose
`parentId` graph is acyclic — i.e. admits a rank function under which
every record's id ranks strictly below its parent's id, as the normal
fresh-and-monotonic id generation produces — for every starting id; on
cyclic chains, which are externally injectable via `appendTrace`, the
recursion diverges (see the counterexample). -/
theorem getTraceTree_terminates_on_acyclic (d : List SkillTrace)
    (rank : String → Nat) (hr : ParentRankDecreasing rank d) (traceId : String) :
    TreeTerminates d traceId := by
  have hstab : ∀ m, rank traceId + 1 ≤ m →
      buildChildrenF d m traceId = buildChildrenF d (rank traceId + 1) traceId := by
    intro m hm
    have hm' : m = (m - 1) + 1 := by omega
    rw [hm']
    exact buildChildrenF_stab d rank hr (rank traceId) traceId (le_refl _)
      (m - 1) (rank traceId) (by omega) (le_refl _)
  refine ⟨rank traceId + 1, ?_⟩
  intro m hm
  unfold getTraceTreeF
  cases hopt : (d.find? (fun t => t.id == traceId)).bind (·.subAgents) with
  | none => exact hstab m hm
  | some l =>
    by_cases hl : l.length > 0
    · simp [hl]
    · simp [hl, hstab m hm]

/-- Witness for the amended C8: a two-node acyclic partition with the
child ranking below its parent. -/
theorem getTraceTree_terminates_on_acyclic_witness :
    TreeTerminates [{ id := "c", parentId := some "r" }] "r" := by
  refine getTraceTree_terminates_on_acyclic _ (fun s => if s = "r" then 1 else 0) ?_ "r"
  intro c hc pid hp
  rw [List.mem_singleton] at hc
  subst hc
  simp only at hp
  injection hp with hp
  subst hp
  decide

/-- The tree-reconstruction example partition of spec §8.7: a root with
two children by `parentId`, one of which has its own child. -/
def treeExample : List SkillTrace :=
  [{ id := "r", skillName := some "root", startTime := 0, status := .success },
   { id := "c1", skillName := some "mid", startTime := 1, status := .success,
     parentId := some "r" },
   { id := "c2", skillName := some "other", startTime := 2, status := .failed,
     parentId := some "r" },
   { id := "l", skillName := some "leaf", startTime := 3, status := .success,
     parentId := some "c1" }]

/-- The tree `getTraceTree` reconstructs for `treeExample` from the root
"r": two top-level nodes, the one named after the middle trace carrying
exactly one nested child matching the leaf trace. -/
def treeExpected : List SubAgentCall :=
  [.mk (some "mid") 1 none none .success
      (some [.mk (some "leaf") 3 none none .success (some [])]),
   .mk (some "other") 2 none none .failed (some [])]

/-- Rank function showing `treeExample`'s `parentId` graph acyclic. -/
def treeRank : String → Nat :=
  fun s => if s = "r" then 2 else if s = "c1" then 1 else 0

/-- C7: on `treeExample`, `getTraceTree "r"` (at any sufficient
recursion depth, which stabilizes) returns exactly the two top-level
nodes with the single nested leaf under the middle node; and whenever
the root trace exists and carries a non-empty embedded `subAgents`
list, `getTraceTree` returns that list verbatim instead of the
`parentId` reconstruction. -/
theorem getTraceTree_reconstruction_and_verbatim :
    (∀ n, getTraceTreeF treeExample (n + 3) "r" = treeExpected)
    ∧ (∀ (d : List SkillTrace) (fuel : Nat) (tid : String) (r : SkillTrace)
        (l : List SubAgentCall),
        d.find? (fun t => t.id == tid) = some r → r.subAgents = some l → l ≠ [] →
        getTraceTreeF d fuel tid = l) := by
  constructor
  · intro n
    have hr : ParentRankDecreasing treeRank treeExample := by
      intro c hc pid hp
      fin_cases hc
      · simp at hp
      · injection hp with h
        subst h
        decide
      · injection hp with h
        subst h
        decide
      · injection hp with h
        subst h
        decide
    have hstab := buildChildrenF_stab treeExample treeRank hr 2 "r" (by decide)
      (n + 2) 2 (by simp [treeRank]) (by decide)
    have h1 : getTraceTreeF treeExample (n + 3) "r"
        = buildChildrenF treeExample (n + 3) "r" := rfl
    rw [h1]
    exact hstab.trans (by rfl)
  · intro d fuel tid r l hfind hsub hne
    have h0 : (d.find? (fun t => t.id == tid)).bind (·.subAgents) = some l := by
      rw [hfind]
      exact hsub
    unfold getTraceTreeF
    rw [h0]
    have hl : l.length > 0 := List.length_pos.mpr hne
    simp [hl]

/-- A partition whose root trace carries an embedded non-empty
`subAgents` list. -/
def verbatimExample : List SkillTrace :=
  [{ id := "x", subAgents := some [.mk (some "s") 0 none none .success none] }]

/-- Witness for C7: the concrete reconstruction at depth 3, and a root
with an embedded non-empty `subAgents` list returned verbatim. -/
theorem getTraceTree_reconstruction_and_verbatim_witness :
    getTraceTreeF treeExample 3 "r" = treeExpected
    ∧ getTraceTreeF verbatimExample 0 "x"
      = [.mk (some "s") 0 none none .success none] :=
  ⟨getTraceTree_reconstruction_and_verbatim.1 0,
   getTraceTree_reconstruction_and_verbatim.2 verbatimExample
     0 "x" { id := "x", subAgents := some [.mk (some "s") 0 none none .success none] }
     [.mk (some "s") 0 none none .success none] rfl rfl (by simp)⟩

/-- The completion record `wrapCron` appends for a given outcome:
status `success` on resolution, `failed` with the captured message on
rejection. -/
def cronDoneOf {T : Type} (start : SkillTrace) (endTime durationMs : Nat)
    (outcome : Except String T) : SkillTrace :=
  match outcome with
  | .ok _ => cronDoneRecord start endTime durationMs .success none
  | .error msg => cronDoneRecord start endTime durationMs .failed (some msg)

theorem mem_firstKeys_aux (k : String) :
    ∀ (ts : List SkillTrace) (acc : List String),
      (k ∈ acc ∨ ∃ t ∈ ts, sessionKey t = k) →
      k ∈ ts.foldl
        (fun acc t => if sessionKey t ∈ acc then acc else acc ++ [sessionKey t]) acc := by
  intro ts
  induction ts with
  | nil =>
    intro acc h
    rcases h with h | ⟨t, ht, _⟩
    · exact h
    · cases ht
  | cons t rest ih =>
    intro acc h
    simp only [List.foldl_cons]
    rcases h with h | ⟨u, hu, hk⟩
    · apply ih
      left
      by_cases hmem : sessionKey t ∈ acc
      · rwa [if_pos hmem]
      · rw [if_neg hmem]
        exact List.mem_append_left _ h
    · rcases List.mem_cons.mp hu with rfl | hurest
      · apply ih
        left
        rw [← hk]
        by_cases hmem : sessionKey u ∈ acc
        · rwa [if_pos hmem]
        · rw [if_neg hmem]
          exact List.mem_append_right _ (by simp)
      · exact ih _ (Or.inr ⟨u, hurest, hk⟩)

theorem mem_firstKeys {ts : List SkillTrace} {t : SkillTrace} (ht : t ∈ ts) :
    sessionKey t ∈ firstKeys ts :=
  mem_firstKeys_aux (sessionKey t) ts [] (Or.inr ⟨t, ht, rfl⟩)

theorem mem_getSessions_pair (d : TracesDir) (day now : Nat) (t u : SkillTrace)
    (ht : t ∈ readTraces d day) (hu : u ∈ readTraces d day)
    (hk : sessionKey t = sessionKey u) :
    ∃ s, s ∈ getSessions d day now ∧ t ∈ s.skills ∧ u ∈ s.skills := by
  refine ⟨_, List.mem_map.mpr ⟨sessionKey t, mem_firstKeys ht, rfl⟩, ?_, ?_⟩
  · show t ∈ ((readTraces d day).filter
      (fun x => sessionKey x == sessionKey t)).mergeSort (fun a b => a.startTime ≤ b.startTime)
    exact List.mem_mergeSort.mpr (List.mem_filter.mpr ⟨ht, by simp⟩)
  · show u ∈ ((readTraces d day).filter
      (fun x => sessionKey x == sessionKey t)).mergeSort (fun a b => a.startTime ≤ b.startTime)
    exact List.mem_mergeSort.mpr (List.mem_filter.mpr ⟨hu, by rw [hk]; simp⟩)

/-- C9: `readTraces` returns every line of the shared daily partition
with no filtering on the cron discriminator, so after `wrapCron` writes
its two `CronRecord` entries (running start, `-done` completion) into a
partition, both appear in the partition read verbatim (carrying the
cron tag), both are counted in `getDailySummary`'s `totalSkills` and
per-status counts (the start bumps `runningCount`, the completion bumps
`successCount` on resolution / `failedCount` on rejection), and both
are members of the same `getSessions` group. -/
theorem wrapCron_records_counted_and_grouped {T : Type} (d : TracesDir)
    (id jobName : String) (cronExpr : Option String)
    (day startTime endTime durationMs now : Nat) (outcome : Except String T) :
    readTraces
        (wrapCron d id jobName cronExpr day day startTime endTime durationMs outcome).2 day
      = readTraces d day
        ++ [{ cronStartRecord id jobName cronExpr startTime with isCron := true },
            { cronDoneOf (cronStartRecord id jobName cronExpr startTime) endTime durationMs
                outcome with isCron := true }]
    ∧ ({ cronStartRecord id jobName cronExpr startTime with isCron := true } : SkillTrace).isCron
        = true
    ∧ (getDailySummary
        (wrapCron d id jobName cronExpr day day startTime endTime durationMs outcome).2
        day).totalSkills
      = (getDailySummary d day).totalSkills + 2
    ∧ (getDailySummary
        (wrapCron d id jobName cronExpr day day startTime endTime durationMs outcome).2
        day).runningCount
      = (getDailySummary d day).runningCount + 1
    ∧ (∀ v, outcome = .ok v →
        (getDailySummary
          (wrapCron d id jobName cronExpr day day startTime endTime durationMs outcome).2
          day).successCount
        = (getDailySummary d day).successCount + 1)
    ∧ (∀ msg, outcome = .error msg →
        (getDailySummary
          (wrapCron d id jobName cronExpr day day startTime endTime durationMs outcome).2
          day).failedCount
        = (getDailySummary d day).failedCount + 1)
    ∧ (∃ s, s ∈ getSessions
          (wrapCron d id jobName cronExpr day day startTime endTime durationMs outcome).2 day now
        ∧ ({ cronStartRecord id jobName cronExpr startTime with isCron := true } : SkillTrace)
            ∈ s.skills
        ∧ ({ cronDoneOf (cronStartRecord id jobName cronExpr startTime) endTime durationMs
              outcome with isCron := true } : SkillTrace) ∈ s.skills) := by
  have hread : readTraces
      (wrapCron d id jobName cronExpr day day startTime endTime durationMs outcome).2 day
      = readTraces d day
        ++ [{ cronStartRecord id jobName cronExpr startTime with isCron := true },
            { cronDoneOf (cronStartRecord id jobName cronExpr startTime) endTime durationMs
                outcome with isCron := true }] := by
    cases outcome <;>
      simp [wrapCron, appendCronRecord, appendTrace, readTraces, cronDoneOf]
  refine ⟨hread, rfl, ?_, ?_, ?_, ?_, ?_⟩
  · show (readTraces
      (wrapCron d id jobName cronExpr day day startTime endTime durationMs outcome).2 day).length
      = (readTraces d day).length + 2
    rw [hread]
    simp
  · show ((readTraces
      (wrapCron d id jobName cronExpr day day startTime endTime durationMs outcome).2 day).filter
        (fun t => t.status == .running)).length
      = ((readTraces d day).filter (fun t => t.status == .running)).length + 1
    rw [hread, List.filter_append, List.length_append]
    cases outcome <;>
      simp [cronStartRecord, cronDoneOf, cronDoneRecord]
  · intro v hv
    subst hv
    show ((readTraces
      (wrapCron d id jobName cronExpr day day startTime endTime durationMs (.ok v)).2 day).filter
        (fun t => t.status == .success)).length
      = ((readTraces d day).filter (fun t => t.status == .success)).length + 1
    rw [hread, List.filter_append, List.length_append]
    simp [cronStartRecord, cronDoneOf, cronDoneRecord]
  · intro msg hmsg
    subst hmsg
    show ((readTraces
      (wrapCron d id jobName cronExpr day day startTime endTime durationMs
        (.error msg)).2 day).filter (fun t => t.status == .failed)).length
      = ((readTraces d day).filter (fun t => t.status == .failed)).length + 1
    rw [hread, List.filter_append, List.length_append]
    simp [cronStartRecord, cronDoneOf, cronDoneRecord]
  · apply mem_getSessions_pair
    · rw [hread]
      simp
    · rw [hread]
      simp
    · cases outcome <;> rfl

/-- Witness for C9: a resolved cron job over the empty store — the two
records make `totalSkills` 2, `successCount` 1 and `runningCount` 1. -/
theorem wrapCron_records_counted_and_grouped_witness :
    (getDailySummary (wrapCron (T := Nat) emptyDir "c1" "job" none 0 0 5 9 4 (.ok 1)).2
        0).totalSkills = 2
    ∧ (getDailySummary (wrapCron (T := Nat) emptyDir "c1" "job" none 0 0 5 9 4 (.ok 1)).2
        0).successCount = 1
    ∧ (getDailySummary (wrapCron (T := Nat) emptyDir "c1" "job" none 0 0 5 9 4 (.ok 1)).2
        0).runningCount = 1 := by
  have h := wrapCron_records_counted_and_grouped (T := Nat) emptyDir "c1" "job" none 0 5 9 4 0
    (.ok 1)
  refine ⟨?_, ?_, ?_⟩
  · rw [h.2.2.1]
    rfl
  · rw [h.2.2.2.2.1 1 rfl]
    rfl
  · rw [h.2.2.2.1]
    rfl

/-- `ImportedSkillCall` from `src/import/importer.ts` (timestamp as ms,
see the header conventions). -/
structure ImportedSkillCall where
  skillName : String
  timestamp : Nat
  sessionId : String
deriving DecidableEq, Repr

/-- Stand-in for the external `crypto` SHA-1 digest truncated to 16 hex
characters.  The importer's logic depends only on the digest being a
deterministic function of its input (collisions are treated as
practically impossible, spec §7), so the digest is modelled as an
injective placeholder. -/
def hashHex (s : String) : String :=
  s

/-- `stableId` from `src/import/importer.ts`: deterministic id derived
from the triple `sessionId:timestamp:skillName`. -/
def stableId (call : ImportedSkillCall) : String :=
  "import-" ++ hashHex (call.sessionId ++ ":" ++ toString call.timestamp ++ ":" ++ call.skillName)

/-- `dateKey(new Date(ms))`: the UTC calendar day of an instant. -/
def dayOf (t : Nat) : Nat :=
  t / 86400000

/-- `scanSessionLogs` with the filesystem/regex part abstracted:
`entries` is the list of skill calls denoted by the matching lines of
the unchanged log directory, in file/line order (deterministic for
lines with a recoverable timestamp); the source's `since` filter
(`new Date(call.timestamp) < since` skips) is applied. -/
def scanSessionLogs (entries : List ImportedSkillCall) (since : Option Nat) :
    List ImportedSkillCall :=
  entries.filter (fun c =>
    match since with
    | some s => decide (s ≤ c.timestamp)
    | none => true)

/-- The trace `importSessionLogs` writes for one call: stable id, the
skill name, the session file name as label, the call's timestamp as
start, status `success` — no `endTime`, no `durationMs`. -/
def importTraceOf (c : ImportedSkillCall) : SkillTrace :=
  { id := stableId c
    skillName := some c.skillName
    sessionLabel := some c.sessionId
    startTime := c.timestamp
    status := .success }

/-- `calls.reduce((min, c) => (c.timestamp < min ? c.timestamp : min),
calls[0].timestamp)`: the earliest timestamp among the calls. -/
def earliestTimestamp (calls : List ImportedSkillCall) : Nat :=
  match calls with
  | [] => 0
  | c0 :: _ =>
      calls.foldl (fun m c => if c.timestamp < m then c.timestamp else m) c0.timestamp

/-- The write loop of `importSessionLogs`: for each call in order, skip
it when its stable id is already known, otherwise append its trace to
the partition of the call's own date and remember the id; returns the
count of newly written traces with the resulting store. -/
def importLoop (d : TracesDir) (ids : List String) :
    List ImportedSkillCall → Nat × TracesDir
  | [] => (0, d)
  | c :: rest =>
      if stableId c ∈ ids then importLoop d ids rest
      else
        let out := importLoop (appendTrace d (dayOf c.timestamp) (importTraceOf c))
          (stableId c :: ids) rest
        (out.1 + 1, out.2)

/-- `importSessionLogs` from `src/import/importer.ts` (`today` is the
day index of `new Date()` at the call): scan, collect the ids already
present in the store between `since ?? earliest-call-date` and today,
then append only calls whose stable id is not yet known. -/
def importSessionLogs (entries : List ImportedSkillCall) (d : TracesDir)
    (since : Option Nat) (today : Nat) : Nat × TracesDir :=
  importLoop d
    (if 0 < (scanSessionLogs entries since).length then
      (readTracesDateRange d
        (dayOf (since.getD (earliestTimestamp (scanSessionLogs entries since))))
        today).map (·.id)
    else [])
    (scanSessionLogs entries since)

/-- Counterexample to C3 as stated: a log directory with a single
future-dated entry (its timestamp falls on day 1 while the import runs
on day 0).  The dedup window `[entry's day, today]` is empty, so both
the first and the second import over the unchanged directory write the
event: the second import returns 1, not 0, and the partition of day 1
ends up holding the same stable id twice. -/
theorem import_future_timestamp_counterexample :
    (importSessionLogs [{ skillName := "sk", timestamp := 86400000, sessionId := "sess" }]
        emptyDir none 0).1 = 1
    ∧ (importSessionLogs [{ skillName := "sk", timestamp := 86400000, sessionId := "sess" }]
        (importSessionLogs [{ skillName := "sk", timestamp := 86400000, sessionId := "sess" }]
          emptyDir none 0).2 none 0).1 = 1
    ∧ (((importSessionLogs [{ skillName := "sk", timestamp := 86400000, sessionId := "sess" }]
        (importSessionLogs [{ skillName := "sk", timestamp := 86400000, sessionId := "sess" }]
          emptyDir none 0).2 none 0).2 1).map (fun t => t.id)).length = 2 := by
  refine ⟨rfl, rfl, rfl⟩

theorem mem_importLoop_of_mem :
    ∀ (calls : List ImportedSkillCall) (d : TracesDir) (ids : List String)
      (k : Nat) (t : SkillTrace), t ∈ d k → t ∈ (importLoop d ids calls).2 k := by
  intro calls
  induction calls with
  | nil => intro d ids k t ht; exact ht
  | cons c rest ih =>
    intro d ids k t ht
    show t ∈ (if stableId c ∈ ids then importLoop d ids rest else _).2 k
    by_cases hmem : stableId c ∈ ids
    · rw [if_pos hmem]
      exact ih d ids k t ht
    · rw [if_neg hmem]
      refine ih _ _ k t ?_
      show t ∈ (if k = dayOf c.timestamp then d k ++ [importTraceOf c] else d k)
      by_cases hk : k = dayOf c.timestamp
      · rw [if_pos hk]
        exact List.mem_append_left _ ht
      · rwa [if_neg hk]

theorem importLoop_covers :
    ∀ (calls : List ImportedSkillCall) (d : TracesDir) (ids : List String)
      (c : ImportedSkillCall), c ∈ calls →
      stableId c ∈ ids
      ∨ ∃ c', c' ∈ calls ∧ stableId c' = stableId c
          ∧ importTraceOf c' ∈ (importLoop d ids calls).2 (dayOf c'.timestamp) := by
  intro calls
  induction calls with
  | nil => intro d ids c hc; cases hc
  | cons a rest ih =>
    intro d ids c hc
    by_cases hmem : stableId a ∈ ids
    · have hloop : importLoop d ids (a :: rest) = importLoop d ids rest := by
        show (if stableId a ∈ ids then importLoop d ids rest else _) = _
        rw [if_pos hmem]
      rcases List.mem_cons.mp hc with rfl | hcrest
      · exact Or.inl hmem
      · rcases ih d ids c hcrest with h | ⟨c', hc', heq, hmemt⟩
        · exact Or.inl h
        · exact Or.inr ⟨c', List.mem_cons_of_mem _ hc', heq, by rwa [hloop]⟩
    · have hloop : (importLoop d ids (a :: rest)).2
          = (importLoop (appendTrace d (dayOf a.timestamp) (importTraceOf a))
              (stableId a :: ids) rest).2 := by
        show (if stableId a ∈ ids then importLoop d ids rest else _).2 = _
        rw [if_neg hmem]
      have hwrote : importTraceOf a ∈ (importLoop d ids (a :: rest)).2 (dayOf a.timestamp) := by
        rw [hloop]
        refine mem_importLoop_of_mem _ _ _ _ _ ?_
        show importTraceOf a
          ∈ (if dayOf a.timestamp = dayOf a.timestamp then
              d (dayOf a.timestamp) ++ [importTraceOf a] else d (dayOf a.timestamp))
        rw [if_pos rfl]
        exact List.mem_append_right _ (List.mem_singleton.mpr rfl)
      rcases List.mem_cons.mp hc with rfl | hcrest
      · exact Or.inr ⟨c, List.mem_cons_self _ _, rfl, hwrote⟩
      · rcases ih (appendTrace d (dayOf a.timestamp) (importTraceOf a))
            (stableId a :: ids) c hcrest with h | ⟨c', hc', heq, hmemt⟩
        · rcases List.mem_cons.mp h with heq | hids
          · exact Or.inr ⟨a, List.mem_cons_self _ _, heq.symm, hwrote⟩
          · exact Or.inl hids
        · exact Or.inr ⟨c', List.mem_cons_of_mem _ hc', heq, by rwa [hloop]⟩

theorem importLoop_all_known :
    ∀ (calls : List ImportedSkillCall) (d : TracesDir) (ids : List String),
      (∀ c ∈ calls, stableId c ∈ ids) → importLoop d ids calls = (0, d) := by
  intro calls
  induction calls with
  | nil => intro d ids _; rfl
  | cons a rest ih =>
    intro d ids h
    show (if stableId a ∈ ids then importLoop d ids rest else _) = _
    rw [if_pos (h a (List.mem_cons_self _ _))]
    exact ih d ids (fun c hc => h c (List.mem_cons_of_mem _ hc))

theorem importLoop_writes_fresh :
    ∀ (calls : List ImportedSkillCall) (d : TracesDir) (ids : List String),
      (∃ c ∈ calls, stableId c ∉ ids) → 0 < (importLoop d ids calls).1 := by
  intro calls
  induction calls with
  | nil => rintro d ids ⟨c, hc, _⟩; cases hc
  | cons a rest ih =>
    rintro d ids ⟨c, hc, hnotin⟩
    show 0 < (if stableId a ∈ ids then importLoop d ids rest else _).1
    by_cases hmem : stableId a ∈ ids
    · rw [if_pos hmem]
      rcases List.mem_cons.mp hc with rfl | hcrest
      · exact absurd hmem hnotin
      · exact ih d ids ⟨c, hcrest, hnotin⟩
    · rw [if_neg hmem]
      exact Nat.succ_pos _

theorem mem_of_mem_readTracesDateRange {d : TracesDir} {s e : Nat} {t : SkillTrace}
    (h : t ∈ readTracesDateRange d s e) : ∃ k, t ∈ d k := by
  rcases List.mem_flatMap.mp h with ⟨k, _, ht⟩
  exact ⟨k, ht⟩

theorem mem_readTracesDateRange_of {d : TracesDir} {s e k : Nat} {t : SkillTrace}
    (hs : s ≤ k) (he : k ≤ e) (ht : t ∈ d k) : t ∈ readTracesDateRange d s e :=
  List.mem_flatMap.mpr ⟨k, List.mem_range'_1.mpr ⟨hs, by omega⟩, ht⟩

theorem dayOf_mono {a b : Nat} (h : a ≤ b) : dayOf a ≤ dayOf b :=
  Nat.div_le_div_right h

theorem foldl_min_le (l : List ImportedSkillCall) :
    ∀ acc : Nat,
      (l.foldl (fun m c => if c.timestamp < m then c.timestamp else m) acc ≤ acc
      ∧ ∀ c ∈ l, l.foldl (fun m c => if c.timestamp < m then c.timestamp else m) acc
          ≤ c.timestamp) := by
  induction l with
  | nil => intro acc; exact ⟨le_refl _, fun c hc => absurd hc (List.not_mem_nil c)⟩
  | cons x rest ih =>
    intro acc
    simp only [List.foldl_cons]
    have hstep : (if x.timestamp < acc then x.timestamp else acc) ≤ acc := by
      by_cases hx : x.timestamp < acc
      · rw [if_pos hx]; omega
      · rw [if_neg hx]
    have hstepx : (if x.timestamp < acc then x.timestamp else acc) ≤ x.timestamp := by
      by_cases hx : x.timestamp < acc
      · rw [if_pos hx]
      · rw [if_neg hx]; omega
    refine ⟨le_trans (ih _).1 hstep, fun c hc => ?_⟩
    rcases List.mem_cons.mp hc with rfl | hcrest
    · exact le_trans (ih _).1 hstepx
    · exact (ih _).2 c hcrest

theorem earliestTimestamp_le {calls : List ImportedSkillCall} {c : ImportedSkillCall}
    (hc : c ∈ calls) : earliestTimestamp calls ≤ c.timestamp := by
  cases calls with
  | nil => cases hc
  | cons c0 rest => exact (foldl_min_le (c0 :: rest) c0.timestamp).2 c hc

theorem importSessionLogs_eq (entries : List ImportedSkillCall) (d : TracesDir)
    (since : Option Nat) (today : Nat)
    (hpos : 0 < (scanSessionLogs entries since).length) :
    importSessionLogs entries d since today
      = importLoop d
          ((readTracesDateRange d
            (dayOf (since.getD (earliestTimestamp (scanSessionLogs entries since))))
            today).map (·.id))
          (scanSessionLogs entries since) := by
  unfold importSessionLogs
  rw [if_pos hpos]

/-- C3 (amended): over a log directory whose contents (and hence scan
output) do not change, and whose matching entries all carry recoverable
timestamps no later than the day the import runs, a first import into a
store that does not yet contain any of the candidate stable ids writes
a nonzero number of traces, and a second import (run the same day or
later) writes exactly 0: every candidate id already lies in the dedup
window `[since ?? earliest-call-date, today]` of the grown store.
Future-dated or timestamp-less entries void the guarantee (see the
counterexample). -/
theorem import_idempotent_for_past_timestamps (entries : List ImportedSkillCall)
    (d : TracesDir) (since : Option Nat) (today₁ today₂ : Nat)
    (hne : scanSessionLogs entries since ≠ [])
    (htoday : ∀ c ∈ scanSessionLogs entries since, dayOf c.timestamp ≤ today₁)
    (hfresh : ∀ c ∈ scanSessionLogs entries since, ∀ k, stableId c ∉ (d k).map (·.id))
    (h12 : today₁ ≤ today₂) :
    0 < (importSessionLogs entries d since today₁).1
    ∧ (importSessionLogs entries (importSessionLogs entries d since today₁).2
        since today₂).1 = 0 := by
  have hpos : 0 < (scanSessionLogs entries since).length := List.length_pos.mpr hne
  constructor
  · rw [importSessionLogs_eq entries d since today₁ hpos]
    apply importLoop_writes_fresh
    obtain ⟨c₀, hc₀⟩ : ∃ c, c ∈ scanSessionLogs entries since := by
      cases h : scanSessionLogs entries since with
      | nil => exact absurd h hne
      | cons x xs => exact ⟨x, h ▸ List.mem_cons_self x xs⟩
    refine ⟨c₀, hc₀, fun hin => ?_⟩
    rcases List.mem_map.mp hin with ⟨t, ht, hid⟩
    rcases mem_of_mem_readTracesDateRange ht with ⟨k, htk⟩
    exact hfresh c₀ hc₀ k (List.mem_map.mpr ⟨t, htk, hid⟩)
  · rw [importSessionLogs_eq entries _ since today₂ hpos]
    rw [importLoop_all_known _ _ _ ?hall]
    case hall =>
      intro c hc
      rcases importLoop_covers (scanSessionLogs entries since) d
          ((readTracesDateRange d
            (dayOf (since.getD (earliestTimestamp (scanSessionLogs entries since))))
            today₁).map (·.id)) c hc with hin | ⟨c', hc', heq, hmem⟩
      · exfalso
        rcases List.mem_map.mp hin with ⟨t, ht, hid⟩
        rcases mem_of_mem_readTracesDateRange ht with ⟨k, htk⟩
        exact hfresh c hc k (List.mem_map.mpr ⟨t, htk, hid⟩)
      · refine List.mem_map.mpr ⟨importTraceOf c', ?_, heq⟩
        refine mem_readTracesDateRange_of ?_ (le_trans (htoday c' hc') h12) ?_
        · cases since with
          | none => exact dayOf_mono (earliestTimestamp_le hc')
          | some s =>
            have hs : s ≤ c'.timestamp := by
              have hf := (List.mem_filter.mp hc').2
              simpa using hf
            exact dayOf_mono hs
        · rw [importSessionLogs_eq entries d since today₁ hpos]
          exact hmem

/-- Witness for the amended C3: one past-dated entry over the empty
store — the first import writes it, the second writes nothing. -/
theorem import_idempotent_for_past_timestamps_witness :
    0 < (importSessionLogs [{ skillName := "sk", timestamp := 5, sessionId := "sess" }]
        emptyDir none 0).1
    ∧ (importSessionLogs [{ skillName := "sk", timestamp := 5, sessionId := "sess" }]
        (importSessionLogs [{ skillName := "sk", timestamp := 5, sessionId := "sess" }]
          emptyDir none 0).2 none 0).1 = 0 :=
  import_idempotent_for_past_timestamps
    [{ skillName := "sk", timestamp := 5, sessionId := "sess" }] emptyDir none 0 0
    (by decide) (by decide) (by intro c hc k; simp [emptyDir]) (le_refl 0)
